import Mathlib

set_option maxHeartbeats 1000000

/-!
Shallow embedding of the `fifth` stack-machine interpreter
(`src/interpreter.rs`) and its driver loop (`src/main.rs`).

Modelling conventions:
* Bytes (`u8`) are `Nat` with explicit `% 256` where the source wraps.
* `usize` is `Nat`; the release-mode wrapping subtraction that the source
  performs in the `Pick` case is made explicit via `wrapSub` (mod `2 ^ 64`).
* The operand stack `Vec<u8>` is a `List Nat` whose head is the top of the
  stack (the end of the `Vec`).
* `print!` output is accumulated in an `out : String` field of the state.
* The `HashMap` of labels is an association list with `List.lookup`.
* A Rust line is tokenized by `split_whitespace`, modelled by
  `splitWhitespace` (split on whitespace, dropping empty fragments).
-/

inductive BinOp where
  | Add
  | Sub
deriving DecidableEq, Repr

inductive Token where
  | Push (value : Nat)
  | Pop
  | Dup
  | Swap
  | Rotate
  | Over
  | Pick (index : Nat)
  | BinOp (op : BinOp)
  | PrintByte
  | PrintChar
  | If
  | Else
  | Then
  | Call (label : String)
  | Return
  | Halt
deriving DecidableEq, Repr

structure AnnotatedToken where
  token : Token
  line_number : Nat
deriving DecidableEq, Repr

inductive RuntimeError where
  | StackOverflow (t : AnnotatedToken)
  | StackUnderflow (t : AnnotatedToken)
  | InvalidLabel (t : AnnotatedToken)
  | CallStackUnderflow (t : AnnotatedToken)
  | UnclosedIfStatement (t : AnnotatedToken)
deriving DecidableEq, Repr

inductive ParseError where
  | InvalidArgument (arg : String) (line : Nat)
  | MissingArgument (tok : String) (line : Nat)
  | DuplicateLabel (label : String) (line : Nat)
  | InvalidCall (label : String) (line : Nat)
  | ElseWithoutIfStatement (t : AnnotatedToken)
  | ThenWithoutIfStatement (t : AnnotatedToken)
  | TooManyElseStatements (t : AnnotatedToken)
deriving DecidableEq, Repr

/-- Runtime state of `Program` (`src/interpreter.rs`, lines 81-90).  The
source lines themselves are not kept: they are consumed by `parse`. -/
structure Program where
  tokens : List AnnotatedToken
  pc : Nat
  labels : List (String × Nat)
  call_stack : List Nat
  stack : List Nat
  stack_size : Nat
  halted : Bool
  out : String
deriving DecidableEq, Repr

/-- The number of values a `usize` can take. -/
def USIZE : Nat := 2 ^ 64

/-- Release-mode wrapping subtraction on `usize`. -/
def wrapSub (a b : Nat) : Nat := (a % USIZE + (USIZE - b % USIZE)) % USIZE

/-- Wrapping `u8` addition (`overflowing_add`). -/
def byteAdd (a b : Nat) : Nat := (a + b) % 256

/-- Wrapping `u8` subtraction `a - b` (`overflowing_sub`). -/
def byteSub (a b : Nat) : Nat := (a % 256 + (256 - b % 256)) % 256

/-- Model of `Vec::get` on the operand stack: the `Vec` is indexed from the bottom,
our list is headed by the top, so position `i` of the `Vec` is position
`length - 1 - i` of the list. -/
def vecGet (l : List Nat) (i : Nat) : Option Nat :=
  if i < l.length then l.get? (l.length - 1 - i) else none

/-- The token stored at instruction index `i`. -/
def tokAt (ts : List AnnotatedToken) (i : Nat) : Option Token :=
  (ts.get? i).map AnnotatedToken.token

/-- Forward scan of the false branch of `If` (`src/interpreter.rs`, lines
328-351): starting one past `pc`, walk forward; a nested `If` increments
the depth, a `Then` decrements it and stops the scan when the depth
reaches 0, an `Else` met at depth exactly 1 also stops the scan.  Returns
the index the loop stops at, or `none` when it runs off the end.  `fuel`
bounds the recursion; `step` passes the token count, which is enough. -/
def scanIfFalse (fuel : Nat) (ts : List AnnotatedToken) (pc : Nat) (depth : Int) : Option Nat :=
  match fuel with
  | 0 => none
  | fuel' + 1 =>
    match tokAt ts (pc + 1) with
    | none => none
    | some .If => scanIfFalse fuel' ts (pc + 1) (depth + 1)
    | some .Else => if depth = 1 then some (pc + 1) else scanIfFalse fuel' ts (pc + 1) depth
    | some .Then => if depth - 1 = 0 then some (pc + 1) else scanIfFalse fuel' ts (pc + 1) (depth - 1)
    | some _ => scanIfFalse fuel' ts (pc + 1) depth

/-- Forward scan of `Else` (`src/interpreter.rs`, lines 356-374): like the
`If` scan but `Else` tokens are ignored entirely; only a `Then` at depth
0 stops the scan.  Returns the index of that `Then` (the source loop does
not advance past it), or `none` when it runs off the end. -/
def scanElseSkip (fuel : Nat) (ts : List AnnotatedToken) (pc : Nat) (depth : Int) : Option Nat :=
  match fuel with
  | 0 => none
  | fuel' + 1 =>
    match tokAt ts (pc + 1) with
    | none => none
    | some .If => scanElseSkip fuel' ts (pc + 1) (depth + 1)
    | some .Then => if depth - 1 = 0 then some (pc + 1) else scanElseSkip fuel' ts (pc + 1) (depth - 1)
    | some _ => scanElseSkip fuel' ts (pc + 1) depth

/-- One execution step (`Program::step`, `src/interpreter.rs` lines
229-397).  Returns the error, if any, together with the state as left by
the source (errors can leave partially mutated state behind: `Swap`,
`Rotate` and the binary operations evaluate all their pops before the
tuple match, so an insufficient stack has been emptied by the time the
underflow is reported; the unclosed-scan errors leave the program counter
at the token count). -/
def step (s : Program) : Option RuntimeError × Program :=
  if s.pc ≥ s.tokens.length ∨ s.halted then (none, s)
  else
    match s.tokens.get? s.pc with
    | none => (none, s)
    | some cur =>
      match cur.token with
      | .Push value =>
          if s.stack.length < s.stack_size then
            (none, { s with pc := s.pc + 1, stack := value :: s.stack })
          else (some (.StackOverflow cur), s)
      | .Pop =>
          match s.stack with
          | [] => (some (.StackUnderflow cur), s)
          | _ :: rest => (none, { s with stack := rest, pc := s.pc + 1 })
      | .Dup =>
          match s.stack with
          | [] => (some (.StackUnderflow cur), s)
          | top :: rest => (none, { s with stack := top :: top :: rest, pc := s.pc + 1 })
      | .Swap =>
          match s.stack with
          | top :: bottom :: rest =>
              (none, { s with stack := bottom :: top :: rest, pc := s.pc + 1 })
          | _ => (some (.StackUnderflow cur), { s with stack := [] })
      | .Over =>
          match s.stack with
          | top :: second :: rest =>
              (none, { s with stack := second :: top :: second :: rest, pc := s.pc + 1 })
          | _ => (some (.StackUnderflow cur), s)
      | .Rotate =>
          match s.stack with
          | top :: middle :: bottom :: rest =>
              (none, { s with stack := bottom :: top :: middle :: rest, pc := s.pc + 1 })
          | _ => (some (.StackUnderflow cur), { s with stack := [] })
      | .Pick index =>
          match vecGet s.stack (wrapSub (wrapSub s.stack.length 1) index) with
          | none => (some (.StackUnderflow cur), s)
          | some value => (none, { s with stack := value :: s.stack, pc := s.pc + 1 })
      | .BinOp op =>
          match s.stack with
          | top :: bottom :: rest =>
              (none, { s with
                stack := (match op with
                          | .Add => byteAdd top bottom
                          | .Sub => byteSub bottom top) :: rest,
                pc := s.pc + 1 })
          | _ => (some (.StackUnderflow cur), { s with stack := [] })
      | .PrintByte =>
          match s.stack with
          | [] => (some (.StackUnderflow cur), s)
          | top :: rest =>
              (none, { s with stack := rest, out := s.out ++ toString top, pc := s.pc + 1 })
      | .PrintChar =>
          match s.stack with
          | [] => (some (.StackUnderflow cur), s)
          | top :: rest =>
              (none, { s with stack := rest, out := s.out.push (Char.ofNat top), pc := s.pc + 1 })
      | .If =>
          match s.stack with
          | [] => (some (.StackUnderflow cur), s)
          | top :: _ =>
            if top > 0 then (none, { s with pc := s.pc + 1 })
            else
              match scanIfFalse s.tokens.length s.tokens s.pc 1 with
              | some j => (none, { s with pc := j + 1 })
              | none => (some (.UnclosedIfStatement cur), { s with pc := s.tokens.length })
      | .Else =>
          match scanElseSkip s.tokens.length s.tokens s.pc 1 with
          | some j => (none, { s with pc := j })
          | none => (some (.UnclosedIfStatement cur), { s with pc := s.tokens.length })
      | .Then => (none, { s with pc := s.pc + 1 })
      | .Call label =>
          match s.labels.lookup label with
          | none => (some (.InvalidLabel cur), s)
          | some index => (none, { s with call_stack := (s.pc + 1) :: s.call_stack, pc := index })
      | .Return =>
          match s.call_stack with
          | [] => (some (.CallStackUnderflow cur), s)
          | index :: rest => (none, { s with pc := index, call_stack := rest })
      | .Halt => (none, { s with halted := true })

/-- The driver loop of `src/main.rs` (lines 132-184): step until `halted`
or an error, with a fuel bound. -/
def run : Nat → Program → Option RuntimeError × Program
  | 0, s => (none, s)
  | fuel + 1, s =>
    if s.halted then (none, s)
    else
      match step s with
      | (some e, s') => (some e, s')
      | (none, s') => run fuel s'

instance {ε α : Type} [DecidableEq ε] [DecidableEq α] : DecidableEq (Except ε α) := fun x y =>
  match x, y with
  | .error a, .error b => decidable_of_iff (a = b) ⟨fun h => by rw [h], fun h => by injection h⟩
  | .ok a, .ok b => decidable_of_iff (a = b) ⟨fun h => by rw [h], fun h => by injection h⟩
  | .error _, .ok _ => isFalse fun h => by injection h
  | .ok _, .error _ => isFalse fun h => by injection h

/-- Worker for `split_whitespace`: walk the characters, accumulating the
current word (reversed); whitespace closes a word, empty pieces are never
produced. -/
def splitWsAux : List Char → List Char → List String
  | [], acc => if acc.isEmpty then [] else [⟨acc.reverse⟩]
  | c :: cs, acc =>
    if c.isWhitespace then
      if acc.isEmpty then splitWsAux cs [] else ⟨acc.reverse⟩ :: splitWsAux cs []
    else splitWsAux cs (c :: acc)

/-- Rust `str::split_whitespace`: split on whitespace, no empty pieces. -/
def splitWhitespace (s : String) : List String :=
  splitWsAux s.data []

/-- Rust `str::to_uppercase` (the sources only use ASCII names). -/
def toUpperStr (s : String) : String :=
  ⟨s.data.map Char.toUpper⟩

/-- Rust `str::starts_with(char)`. -/
def strStartsWithChar (s : String) (c : Char) : Bool :=
  match s.data with
  | [] => false
  | d :: _ => d == c

/-- Rust `str::ends_with(str)` for the one-character suffix `":"`. -/
def strEndsWithChar (s : String) (c : Char) : Bool :=
  match s.data.getLast? with
  | none => false
  | some d => d == c

/-- The label prefix `part[..part.len() - 1]`: everything before the
trailing colon. -/
def strDropLast (s : String) : String :=
  ⟨s.data.dropLast⟩

/-- Decimal digit accumulation for `str::parse`. -/
def parseNatAux : List Char → Nat → Option Nat
  | [], acc => some acc
  | c :: cs, acc =>
    if c.isDigit then parseNatAux cs (acc * 10 + (c.toNat - 48)) else none

/-- Digits-only decimal reading underlying `str::parse` (an empty token
never reaches it; a leading `+`, which Rust would accept, is not modelled
— no claim exercises it). -/
def strToNat? (s : String) : Option Nat :=
  match s.data with
  | [] => none
  | _ => parseNatAux s.data 0

/-- Rust `str::parse::<u8>` on an argument token (digits only, value below 256). -/
def parseU8 (s : String) : Option Nat :=
  match strToNat? s with
  | some v => if v ≤ 255 then some v else none
  | none => none

/-- Rust `str::parse::<usize>` on an argument token. -/
def parseUsize (s : String) : Option Nat :=
  match strToNat? s with
  | some v => if v < USIZE then some v else none
  | none => none

/-- Mnemonic dispatch for one instruction line (`Program::parse`,
`src/interpreter.rs` lines 128-172): the first token is matched
case-insensitively; `PUSH` and `PICK` consume exactly one further token;
anything unrecognized becomes a `Call` to the uppercased name. -/
def parseInstr (part : String) (parts : List String) (line : Nat) : Except ParseError Token :=
  let u := toUpperStr part
  if u = "PUSH" then
    match parts with
    | [] => .error (.MissingArgument part line)
    | arg :: _ =>
      match parseU8 arg with
      | some value => .ok (.Push value)
      | none => .error (.InvalidArgument arg line)
  else if u = "POP" then .ok .Pop
  else if u = "DUP" then .ok .Dup
  else if u = "SWAP" then .ok .Swap
  else if u = "OVER" then .ok .Over
  else if u = "ROTATE" then .ok .Rotate
  else if u = "PICK" then
    match parts with
    | [] => .error (.MissingArgument part line)
    | arg :: _ =>
      match parseUsize arg with
      | some value => .ok (.Pick value)
      | none => .error (.InvalidArgument arg line)
  else if u = "ADD" then .ok (.BinOp .Add)
  else if u = "SUB" then .ok (.BinOp .Sub)
  else if u = "PRINT_BYTE" then .ok .PrintByte
  else if u = "PRINT_CHAR" then .ok .PrintChar
  else if u = "IF" then .ok .If
  else if u = "ELSE" then .ok .Else
  else if u = "THEN" then .ok .Then
  else if u = "RETURN" then .ok .Return
  else if u = "HALT" then .ok .Halt
  else .ok (.Call u)

/-- The line loop of `Program::parse` (`src/interpreter.rs` lines
108-175), over pre-tokenized lines: blank lines and `#` comments are
skipped, a first token ending in `:` declares a label bound to the
current token count (duplicates are an error), anything else goes through
`parseInstr` and is appended with its 1-based line number. -/
def parseAux : List (List String) → Nat → List AnnotatedToken → List (String × Nat) →
    Except ParseError (List AnnotatedToken × List (String × Nat))
  | [], _, toks, labels => .ok (toks, labels)
  | line :: ls, n, toks, labels =>
    match line with
    | [] => parseAux ls (n + 1) toks labels
    | part :: parts =>
      if strStartsWithChar part '#' then parseAux ls (n + 1) toks labels
      else if strEndsWithChar part ':' then
        match labels.lookup (toUpperStr (strDropLast part)) with
        | some _ => .error (.DuplicateLabel part n)
        | none => parseAux ls (n + 1) toks (labels ++ [(toUpperStr (strDropLast part), toks.length)])
      else
        match parseInstr part parts n with
        | .error e => .error e
        | .ok t => parseAux ls (n + 1) (toks ++ [{ token := t, line_number := n }]) labels

/-- Model of `Program::check_if_statements` (`src/interpreter.rs` lines 199-227):
validate `If`/`Else`/`Then` nesting with a stack of else-counts. -/
def checkIfStatements : List AnnotatedToken → List Nat → Except ParseError Unit
  | [], _ => .ok ()
  | a :: rest, counts =>
    match a.token with
    | .If => checkIfStatements rest (0 :: counts)
    | .Else =>
      match counts with
      | [] => .error (.ElseWithoutIfStatement a)
      | n :: counts' =>
        if n > 0 then .error (.TooManyElseStatements a)
        else checkIfStatements rest ((n + 1) :: counts')
    | .Then =>
      match counts with
      | [] => .error (.ThenWithoutIfStatement a)
      | _ :: counts' => checkIfStatements rest counts'
    | _ => checkIfStatements rest counts

/-- Model of `Program::check_calls` (`src/interpreter.rs` lines 185-197): every
`Call` label must be present in the label table. -/
def checkCalls : List AnnotatedToken → List (String × Nat) → Except ParseError Unit
  | [], _ => .ok ()
  | a :: rest, labels =>
    match a.token with
    | .Call label =>
      match labels.lookup label with
      | none => .error (.InvalidCall label a.line_number)
      | some _ => checkCalls rest labels
    | _ => checkCalls rest labels

/-- Model of `Program::parse` (`src/interpreter.rs` lines 107-183): run the line
loop, then the nesting check, then the call check. -/
def parse (srcLines : List String) : Except ParseError (List AnnotatedToken × List (String × Nat)) :=
  match parseAux (srcLines.map splitWhitespace) 1 [] [] with
  | .error e => .error e
  | .ok (toks, labels) =>
    match checkIfStatements toks [] with
    | .error e => .error e
    | .ok _ =>
      match checkCalls toks labels with
      | .error e => .error e
      | .ok _ => .ok (toks, labels)

/-- Initial state of a parsed program with a given stack capacity
(`Program::new` plus a successful `parse`). -/
def mkProgram (toks : List AnnotatedToken) (labels : List (String × Nat)) (stack_size : Nat) : Program :=
  { tokens := toks, pc := 0, labels := labels, call_stack := [],
    stack := [], stack_size := stack_size, halted := false, out := "" }

/-- Weight of a token in the forward-scan depth count: nested `If` opens a
level, `Then` closes one, everything else is neutral. -/
def scanWeight : Token → Int
  | .If => 1
  | .Then => -1
  | _ => 0

/-- Total depth change contributed by a list of tokens. -/
def wsum (l : List AnnotatedToken) : Int :=
  (l.map (fun a => scanWeight a.token)).sum

/-- The tokens strictly between positions `p` and `k`. -/
def seg (ts : List AnnotatedToken) (p k : Nat) : List AnnotatedToken :=
  (ts.drop (p + 1)).take (k - (p + 1))

/-- Scan depth on arrival at position `k`, for a scan triggered at `p`:
the seed depth 1 plus the weights of the tokens in between. -/
def depthAt (ts : List AnnotatedToken) (p k : Nat) : Int :=
  1 + wsum (seg ts p k)

/-- Position `j` is the matching `Then` for an `Else` at `p`: the first position
after `p` holding a `Then` at scan depth 1 (so that the decrement of the
depth reaches 0 there), with nested `If`/`Then` tracked and intervening
`Else` tokens ignored. -/
def IsThenMatch (ts : List AnnotatedToken) (p j : Nat) : Prop :=
  p < j ∧ tokAt ts j = some .Then ∧ depthAt ts p j = 1 ∧
    ∀ k, p < k → k < j → ¬(tokAt ts k = some .Then ∧ depthAt ts p k = 1)

/-- Position `j` is the stop position of the false-branch scan of an `If` at `p`:
the first position after `p` holding either a `Then` at scan depth 1 (its
matching `Then`) or an `Else` at scan depth exactly 1 (its own `Else`). -/
def IsIfStop (ts : List AnnotatedToken) (p j : Nat) : Prop :=
  p < j ∧ (tokAt ts j = some .Then ∨ tokAt ts j = some .Else) ∧ depthAt ts p j = 1 ∧
    ∀ k, p < k → k < j →
      ¬((tokAt ts k = some .Then ∨ tokAt ts k = some .Else) ∧ depthAt ts p k = 1)

/-- Stack depth each instruction requires before it can execute (`none`
for instructions that read no operands). -/
def arity : Token → Option Nat
  | .Pop => some 1
  | .Dup => some 1
  | .Swap => some 2
  | .Over => some 2
  | .Rotate => some 3
  | .Pick index => some (index + 1)
  | .BinOp _ => some 2
  | .PrintByte => some 1
  | .PrintChar => some 1
  | .If => some 1
  | _ => none

/-- Instructions whose underflow path has already consumed its operands:
`Swap`, `Rotate` and the binary operations evaluate every pop before the
tuple match, so an insufficient stack is emptied before the error. -/
def drainsOnUnderflow : Token → Bool
  | .Swap => true
  | .Rotate => true
  | .BinOp _ => true
  | _ => false

/-- Instructions that push a value without any capacity check: `Dup`,
`Over` and `Pick` (only `Push` is guarded by `StackOverflow`). -/
def growsUnchecked : Token → Bool
  | .Dup => true
  | .Over => true
  | .Pick _ => true
  | _ => false

theorem wsum_cons (a : AnnotatedToken) (l : List AnnotatedToken) :
    wsum (a :: l) = scanWeight a.token + wsum l := by
  simp [wsum]

theorem seg_self (ts : List AnnotatedToken) (p : Nat) : seg ts p (p + 1) = [] := by
  simp [seg]

theorem seg_cons (ts : List AnnotatedToken) (p k : Nat) (h1 : p + 1 < ts.length)
    (hk : p + 1 < k) :
    seg ts p k = ts.get ⟨p + 1, h1⟩ :: seg ts (p + 1) k := by
  unfold seg
  rw [show k - (p + 1) = (k - (p + 1 + 1)) + 1 by omega]
  rw [List.drop_eq_getElem_cons h1, List.take_succ_cons]
  rfl

theorem tokAt_some {ts : List AnnotatedToken} {j : Nat} {t : Token}
    (h : tokAt ts j = some t) : ∃ a, ts.get? j = some a ∧ a.token = t := by
  unfold tokAt at h
  exact Option.map_eq_some'.mp h

theorem tokAt_lt {ts : List AnnotatedToken} {j : Nat} {t : Token}
    (h : tokAt ts j = some t) : j < ts.length := by
  obtain ⟨a, h1, _⟩ := tokAt_some h
  exact (List.get?_eq_some.mp h1).1

theorem tokAt_get (ts : List AnnotatedToken) (j : Nat) (h : j < ts.length) :
    tokAt ts j = some (ts.get ⟨j, h⟩).token := by
  unfold tokAt
  rw [List.get?_eq_get h]
  rfl

/-- The `Else` forward scan reaches exactly the first `Then` whose depth
condition fires, for any entry depth `d`. -/
theorem scanElseSkip_finds :
    ∀ (fuel : Nat) (ts : List AnnotatedToken) (p : Nat) (d : Int) (j : Nat),
      j - p ≤ fuel → p < j → tokAt ts j = some .Then →
      d + wsum (seg ts p j) = 1 →
      (∀ k, p < k → k < j → ¬(tokAt ts k = some .Then ∧ d + wsum (seg ts p k) = 1)) →
      scanElseSkip fuel ts p d = some j := by
  intro fuel
  induction fuel with
  | zero => intro ts p d j hf hp _ _ _; omega
  | succ fuel ih =>
    intro ts p d j hf hp hj hd hfirst
    have hjlen : j < ts.length := tokAt_lt hj
    have h1 : p + 1 < ts.length := by omega
    rcases Nat.lt_or_ge (p + 1) j with hpj | hpj
    · -- the scan has not reached `j` yet: handle the token at `p + 1`
      have hsj : seg ts p j = ts.get ⟨p + 1, h1⟩ :: seg ts (p + 1) j :=
        seg_cons ts p j h1 hpj
      have hrec : scanElseSkip fuel ts (p + 1) (d + scanWeight (ts.get ⟨p + 1, h1⟩).token)
          = some j := by
        apply ih
        · omega
        · omega
        · exact hj
        · rw [hsj, wsum_cons] at hd; omega
        · intro k hk1 hk2
          have hk0 : p < k := by omega
          have hsk : seg ts p k = ts.get ⟨p + 1, h1⟩ :: seg ts (p + 1) k :=
            seg_cons ts p k h1 hk1
          intro hcontra
          apply hfirst k hk0 hk2
          refine ⟨hcontra.1, ?_⟩
          rw [hsk, wsum_cons]
          omega
      have hnotThen : ¬((ts.get ⟨p + 1, h1⟩).token = .Then ∧ d = 1) := by
        intro hcontra
        apply hfirst (p + 1) (by omega) hpj
        constructor
        · rw [tokAt_get ts (p + 1) h1, hcontra.1]
        · rw [seg_self]
          simp [wsum, hcontra.2]
      simp only [scanElseSkip, tokAt_get ts (p + 1) h1]
      cases htok : (ts.get ⟨p + 1, h1⟩).token
      case Then =>
        rw [htok] at hrec hnotThen
        simp only [scanWeight] at hrec
        have hd1 : d ≠ 1 := fun h => hnotThen ⟨rfl, h⟩
        rw [if_neg (show ¬(d - 1 = 0) by omega)]
        rw [show d - 1 = d + -1 from by ring]
        exact hrec
      all_goals
        rw [htok] at hrec
        simp only [scanWeight] at hrec
        first | exact hrec | simpa using hrec
    · -- `j = p + 1`: the scan stops right here
      have hj1 : j = p + 1 := by omega
      subst hj1
      have hd1 : d = 1 := by
        rw [seg_self] at hd
        simp [wsum] at hd
        omega
      obtain ⟨a, ha, hat⟩ := tokAt_some hj
      have : ts.get ⟨p + 1, h1⟩ = a := by
        have := List.get?_eq_get h1
        rw [this] at ha
        exact Option.some.inj ha
      simp only [scanElseSkip, tokAt_get ts (p + 1) h1, this, hat]
      rw [if_pos (by omega)]

/-- The false-branch forward scan of `If` reaches exactly the first
position holding a `Then` or `Else` whose depth condition fires, for any
entry depth `d`. -/
theorem scanIfFalse_finds :
    ∀ (fuel : Nat) (ts : List AnnotatedToken) (p : Nat) (d : Int) (j : Nat),
      j - p ≤ fuel → p < j →
      (tokAt ts j = some .Then ∨ tokAt ts j = some .Else) →
      d + wsum (seg ts p j) = 1 →
      (∀ k, p < k → k < j →
        ¬((tokAt ts k = some .Then ∨ tokAt ts k = some .Else) ∧ d + wsum (seg ts p k) = 1)) →
      scanIfFalse fuel ts p d = some j := by
  intro fuel
  induction fuel with
  | zero => intro ts p d j hf hp _ _ _; omega
  | succ fuel ih =>
    intro ts p d j hf hp hj hd hfirst
    have hjlen : j < ts.length := by
      rcases hj with h | h
      · exact tokAt_lt h
      · exact tokAt_lt h
    have h1 : p + 1 < ts.length := by omega
    rcases Nat.lt_or_ge (p + 1) j with hpj | hpj
    · -- the scan has not reached `j` yet: handle the token at `p + 1`
      have hsj : seg ts p j = ts.get ⟨p + 1, h1⟩ :: seg ts (p + 1) j :=
        seg_cons ts p j h1 hpj
      have hrec : scanIfFalse fuel ts (p + 1) (d + scanWeight (ts.get ⟨p + 1, h1⟩).token)
          = some j := by
        apply ih
        · omega
        · omega
        · exact hj
        · rw [hsj, wsum_cons] at hd; omega
        · intro k hk1 hk2
          have hsk : seg ts p k = ts.get ⟨p + 1, h1⟩ :: seg ts (p + 1) k :=
            seg_cons ts p k h1 hk1
          intro hcontra
          apply hfirst k (by omega) hk2
          refine ⟨hcontra.1, ?_⟩
          rw [hsk, wsum_cons]
          omega
      have hnotStop :
          ¬(((ts.get ⟨p + 1, h1⟩).token = .Then ∨ (ts.get ⟨p + 1, h1⟩).token = .Else) ∧ d = 1) := by
        intro hcontra
        apply hfirst (p + 1) (by omega) hpj
        constructor
        · rcases hcontra.1 with h | h
          · exact Or.inl (by rw [tokAt_get ts (p + 1) h1, h])
          · exact Or.inr (by rw [tokAt_get ts (p + 1) h1, h])
        · rw [seg_self]
          simp [wsum, hcontra.2]
      simp only [scanIfFalse, tokAt_get ts (p + 1) h1]
      cases htok : (ts.get ⟨p + 1, h1⟩).token
      case Then =>
        rw [htok] at hrec hnotStop
        simp only [scanWeight] at hrec
        have hd1 : d ≠ 1 := fun h => hnotStop ⟨Or.inl rfl, h⟩
        rw [if_neg (show ¬(d - 1 = 0) by omega)]
        rw [show d - 1 = d + -1 from by ring]
        exact hrec
      case Else =>
        rw [htok] at hrec hnotStop
        simp only [scanWeight] at hrec
        have hd1 : d ≠ 1 := fun h => hnotStop ⟨Or.inr rfl, h⟩
        rw [if_neg hd1]
        simpa using hrec
      all_goals
        rw [htok] at hrec
        simp only [scanWeight] at hrec
        first | exact hrec | simpa using hrec
    · -- `j = p + 1`: the scan stops right here
      have hj1 : j = p + 1 := by omega
      subst hj1
      have hd1 : d = 1 := by
        rw [seg_self] at hd
        simp [wsum] at hd
        omega
      obtain hstop | hstop := hj
      · obtain ⟨a, ha, hat⟩ := tokAt_some hstop
        have hga : ts.get ⟨p + 1, h1⟩ = a := by
          have hgg := List.get?_eq_get h1
          rw [hgg] at ha
          exact Option.some.inj ha
        simp only [scanIfFalse, tokAt_get ts (p + 1) h1, hga, hat]
        rw [if_pos (by omega)]
      · obtain ⟨a, ha, hat⟩ := tokAt_some hstop
        have hga : ts.get ⟨p + 1, h1⟩ = a := by
          have hgg := List.get?_eq_get h1
          rw [hgg] at ha
          exact Option.some.inj ha
        simp only [scanIfFalse, tokAt_get ts (p + 1) h1, hga, hat]
        rw [if_pos hd1]

/-- C5 (amended): for every state whose current instruction is `Else`
with a matching `Then` ahead (tracking nested `If` depth and ignoring
intervening `Else` tokens), a single `step` succeeds, sets the program
counter to the index OF that matching `Then` (not past it — the `Then`
is then executed as a no-op by the following step), and changes nothing
else. -/
theorem else_step_sets_pc_to_matching_then (s : Program) (a : AnnotatedToken) (j : Nat)
    (hh : s.halted = false) (ha : s.tokens.get? s.pc = some a) (htok : a.token = .Else)
    (hm : IsThenMatch s.tokens s.pc j) :
    step s = (none, { s with pc := j }) := by
  obtain ⟨t, ln⟩ := a
  simp only at htok
  subst htok
  have hpc : s.pc < s.tokens.length := (List.get?_eq_some.mp ha).1
  obtain ⟨hlt, hthen, hdep, hfirst⟩ := hm
  have hjlen : j < s.tokens.length := tokAt_lt hthen
  have hscan : scanElseSkip s.tokens.length s.tokens s.pc 1 = some j := by
    apply scanElseSkip_finds
    · omega
    · exact hlt
    · exact hthen
    · exact hdep
    · exact hfirst
  simp only [step]
  rw [if_neg (by simp only [hh, Bool.false_eq_true, or_false]; omega), ha]
  simp only [hscan]

/-- C6 (confirmed): for every state whose current instruction is `If` and
whose operand stack is non-empty, if the top byte is greater than 0 a
single `step` just increments the program counter, and if the top byte is
0 a single `step` moves the program counter just past the stop position of
the scan — the matching `Else` when one occurs at scan depth exactly 1,
otherwise the matching `Then` (`IsIfStop` is the first such position).
In both cases the condition byte is only peeked: the stack (and every
other field except the program counter) is unchanged. -/
theorem if_step_peeks_and_branches (s : Program) (a : AnnotatedToken) (t : Nat) (rest : List Nat)
    (hh : s.halted = false) (ha : s.tokens.get? s.pc = some a) (htok : a.token = .If)
    (hstk : s.stack = t :: rest) :
    (0 < t → step s = (none, { s with pc := s.pc + 1 }))
    ∧ (t = 0 → ∀ j, IsIfStop s.tokens s.pc j → step s = (none, { s with pc := j + 1 })) := by
  obtain ⟨u, ln⟩ := a
  simp only at htok
  subst htok
  have hpc : s.pc < s.tokens.length := (List.get?_eq_some.mp ha).1
  constructor
  · intro hpos
    simp only [step]
    rw [if_neg (by simp only [hh, Bool.false_eq_true, or_false]; omega), ha]
    simp only [hstk]
    rw [if_pos hpos]
  · intro hzero j hstop
    subst hzero
    obtain ⟨hlt, hj, hdep, hfirst⟩ := hstop
    have hjlen : j < s.tokens.length := by
      rcases hj with h | h
      · exact tokAt_lt h
      · exact tokAt_lt h
    have hscan : scanIfFalse s.tokens.length s.tokens s.pc 1 = some j := by
      apply scanIfFalse_finds
      · omega
      · exact hlt
      · exact hj
      · exact hdep
      · exact hfirst
    simp only [step]
    rw [if_neg (by simp only [hh, Bool.false_eq_true, or_false]; omega), ha]
    simp only [hstk]
    rw [if_neg (by omega)]
    simp only [hscan]

/-- C8 (confirmed): when the program counter is at or past the end of the
instruction sequence, or the halted flag is already set, `step` returns
success and leaves the entire state unchanged. -/
theorem step_noop_when_done (s : Program)
    (h : s.pc ≥ s.tokens.length ∨ s.halted = true) :
    step s = (none, s) := by
  simp only [step]
  rw [if_pos h]

/-- C8 witness: a state whose program counter has run past the single
instruction is left untouched by `step`. -/
theorem step_noop_when_done_witness :
    step { tokens := [⟨.Halt, 1⟩], pc := 1, labels := [], call_stack := [],
           stack := [3], stack_size := 8, halted := false, out := "" }
      = (none, { tokens := [⟨.Halt, 1⟩], pc := 1, labels := [], call_stack := [],
                 stack := [3], stack_size := 8, halted := false, out := "" }) :=
  step_noop_when_done _ (Or.inl (by decide))

/-- When `Pick` asks for a depth at least the stack length, the unsigned index computation
of the source wraps to a value at or above the length. -/
theorem pick_index_wraps (len m : Nat) (hm : m < USIZE)
    (h : len ≤ m) : ¬ wrapSub (wrapSub len 1) m < len := by
  have h64 : USIZE = 18446744073709551616 := by norm_num [USIZE]
  simp only [wrapSub, h64]
  omega

/-- C1 (amended): executing `step` on `Pop`, `Dup`, `Swap`, `Over`,
`Rotate`, `Pick`, `Add`, `Sub`, `PrintByte`, `PrintChar` or `If` with
fewer stack elements than the instruction requires returns a
`StackUnderflow` error carrying the current annotated token, and leaves
the program counter, call stack, halted flag and output unchanged; the
operand stack is unchanged for `Pop`, `Dup`, `Over`, `Pick`,
`PrintByte`, `PrintChar` and `If`, but is emptied for `Swap`, `Rotate`,
`Add` and `Sub`, whose pops are evaluated before the underflow check. -/
theorem step_underflow (s : Program) (a : AnnotatedToken) (n : Nat)
    (hh : s.halted = false) (ha : s.tokens.get? s.pc = some a)
    (hn : arity a.token = some n) (hlt : s.stack.length < n)
    (hpk : ∀ m, a.token = .Pick m → m < USIZE) :
    step s = (some (.StackUnderflow a),
      { s with stack := if drainsOnUnderflow a.token then [] else s.stack }) := by
  obtain ⟨toks, pc, labels, cs, stk, sz, hlf, o⟩ := s
  simp only at hh ha hlt ⊢
  subst hh
  obtain ⟨t, ln⟩ := a
  simp only at hn hpk ⊢
  have hpc : pc < toks.length := (List.get?_eq_some.mp ha).1
  have hcond : ¬(pc ≥ toks.length ∨ false = true) := by
    simp only [Bool.false_eq_true, or_false]
    omega
  cases t
  case Push v => simp [arity] at hn
  case Pop =>
    simp only [arity, Option.some.injEq] at hn
    have hstk : stk = [] := List.length_eq_zero.mp (by omega)
    subst hstk
    simp only [step]
    rw [if_neg hcond, ha]
    rfl
  case Dup =>
    simp only [arity, Option.some.injEq] at hn
    have hstk : stk = [] := List.length_eq_zero.mp (by omega)
    subst hstk
    simp only [step]
    rw [if_neg hcond, ha]
    rfl
  case Swap =>
    simp only [arity, Option.some.injEq] at hn
    match stk, hlt with
    | [], _ =>
      simp only [step]
      rw [if_neg hcond, ha]
      rfl
    | [x], _ =>
      simp only [step]
      rw [if_neg hcond, ha]
      rfl
    | x :: y :: r, hlt => simp at hlt; omega
  case Over =>
    simp only [arity, Option.some.injEq] at hn
    match stk, hlt with
    | [], _ =>
      simp only [step]
      rw [if_neg hcond, ha]
      rfl
    | [x], _ =>
      simp only [step]
      rw [if_neg hcond, ha]
      rfl
    | x :: y :: r, hlt => simp at hlt; omega
  case Rotate =>
    simp only [arity, Option.some.injEq] at hn
    match stk, hlt with
    | [], _ =>
      simp only [step]
      rw [if_neg hcond, ha]
      rfl
    | [x], _ =>
      simp only [step]
      rw [if_neg hcond, ha]
      rfl
    | [x, y], _ =>
      simp only [step]
      rw [if_neg hcond, ha]
      rfl
    | x :: y :: z :: r, hlt => simp at hlt; omega
  case Pick m =>
    simp only [arity, Option.some.injEq] at hn
    have hm : m < USIZE := hpk m rfl
    have hnone : vecGet stk (wrapSub (wrapSub stk.length 1) m) = none := by
      unfold vecGet
      rw [if_neg (pick_index_wraps stk.length m hm (by omega))]
    simp only [step]
    rw [if_neg hcond, ha]
    simp only [hnone, drainsOnUnderflow]
    rfl
  case BinOp op =>
    simp only [arity, Option.some.injEq] at hn
    match stk, hlt with
    | [], _ =>
      simp only [step]
      rw [if_neg hcond, ha]
      rfl
    | [x], _ =>
      simp only [step]
      rw [if_neg hcond, ha]
      rfl
    | x :: y :: r, hlt => simp at hlt; omega
  case PrintByte =>
    simp only [arity, Option.some.injEq] at hn
    have hstk : stk = [] := List.length_eq_zero.mp (by omega)
    subst hstk
    simp only [step]
    rw [if_neg hcond, ha]
    rfl
  case PrintChar =>
    simp only [arity, Option.some.injEq] at hn
    have hstk : stk = [] := List.length_eq_zero.mp (by omega)
    subst hstk
    simp only [step]
    rw [if_neg hcond, ha]
    rfl
  case If =>
    simp only [arity, Option.some.injEq] at hn
    have hstk : stk = [] := List.length_eq_zero.mp (by omega)
    subst hstk
    simp only [step]
    rw [if_neg hcond, ha]
    rfl
  case Else => simp [arity] at hn
  case Then => simp [arity] at hn
  case Call l => simp [arity] at hn
  case Return => simp [arity] at hn
  case Halt => simp [arity] at hn

/-- C1 counterexample: `Swap` on a one-element stack reports
`StackUnderflow` but does NOT leave the state unchanged — the single
element has already been popped and is lost, so the claimed absence of
partial mutation fails. -/
theorem swap_underflow_mutates :
    (step { tokens := [⟨.Swap, 1⟩], pc := 0, labels := [], call_stack := [],
            stack := [5], stack_size := 8, halted := false, out := "" }).1
      = some (.StackUnderflow ⟨.Swap, 1⟩)
    ∧ (step { tokens := [⟨.Swap, 1⟩], pc := 0, labels := [], call_stack := [],
              stack := [5], stack_size := 8, halted := false, out := "" }).2.stack = []
    ∧ ([] : List Nat) ≠ [5] := by
  refine ⟨rfl, rfl, by decide⟩

/-- C1 witness: the amended underflow theorem applied to `Pop` on an
empty stack. -/
theorem step_underflow_witness :
    step { tokens := [⟨.Pop, 1⟩], pc := 0, labels := [], call_stack := [],
           stack := [], stack_size := 8, halted := false, out := "" }
      = (some (.StackUnderflow ⟨.Pop, 1⟩),
         { tokens := [⟨.Pop, 1⟩], pc := 0, labels := [], call_stack := [],
           stack := if drainsOnUnderflow Token.Pop then []
                    else ([] : List Nat), stack_size := 8, halted := false, out := "" }) :=
  step_underflow _ ⟨.Pop, 1⟩ 1 rfl rfl rfl (by decide) (fun m h => nomatch h)

/-- C2: executing `Pick 0` on an empty operand stack does report
`StackUnderflow` in the release-mode model, but only because the
unsigned index computation `stack.len() - 1 - index` wraps: the
computed index in the model is `2 ^ 64 - 1`, witnessing that the subtraction
underflows (in a debug build this is an arithmetic-overflow panic), so
the index computation is not the total, guarded computation the claim
requires. -/
theorem pick_underflow_by_wrapping :
    (step { tokens := [⟨.Pick 0, 1⟩], pc := 0, labels := [], call_stack := [],
            stack := [], stack_size := 256, halted := false, out := "" }).1
      = some (.StackUnderflow ⟨.Pick 0, 1⟩)
    ∧ wrapSub (wrapSub (List.length ([] : List Nat)) 1) 0 = USIZE - 1
    ∧ (List.length ([] : List Nat) : Int) - 1 - 0 < 0 := by
  refine ⟨rfl, by decide, by decide⟩

/-- C3 (amended): a successful `step` from a state whose operand stack
respects the configured capacity keeps the stack within capacity for
every instruction EXCEPT `Dup`, `Over` and `Pick`, which push without
any capacity check (only `Push` is guarded by `StackOverflow`). -/
theorem step_preserves_capacity_except_unchecked (s : Program)
    (hinv : s.stack.length ≤ s.stack_size)
    (hg : ∀ a, s.tokens.get? s.pc = some a → growsUnchecked a.token = false)
    (hok : (step s).1 = none) :
    (step s).2.stack.length ≤ (step s).2.stack_size := by
  obtain ⟨toks, pc, labels, cs, stk, sz, hl, o⟩ := s
  simp only at hinv hg hok ⊢
  by_cases hno : pc ≥ toks.length ∨ hl = true
  · simp only [step, if_pos hno] at hok ⊢
    exact hinv
  · cases hget : toks.get? pc with
    | none =>
      simp only [step, if_neg hno, hget] at hok ⊢
      exact hinv
    | some a =>
      have hga := hg a hget
      obtain ⟨t, ln⟩ := a
      simp only at hga
      rcases t with v | _ | _ | _ | _ | _ | m | op | _ | _ | _ | _ | _ | label | _ | _
      -- Push
      · simp only [step, if_neg hno, hget] at hok ⊢
        by_cases hlen : stk.length < sz
        · rw [if_pos hlen]
          simp only [List.length_cons]
          omega
        · rw [if_neg hlen] at hok
          simp at hok
      -- Pop
      · simp only [step, if_neg hno, hget] at hok ⊢
        cases stk with
        | nil => simp at hok
        | cons x r =>
          simp only [List.length_cons] at hinv ⊢
          omega
      -- Dup
      · simp [growsUnchecked] at hga
      -- Swap
      · simp only [step, if_neg hno, hget] at hok ⊢
        match stk with
        | [] => simp at hok
        | [x] => simp at hok
        | x :: y :: r =>
          simp only [List.length_cons] at hinv ⊢
          omega
      -- Rotate
      · simp only [step, if_neg hno, hget] at hok ⊢
        match stk with
        | [] => simp at hok
        | [x] => simp at hok
        | [x, y] => simp at hok
        | x :: y :: z :: r =>
          simp only [List.length_cons] at hinv ⊢
          omega
      -- Over
      · simp [growsUnchecked] at hga
      -- Pick
      · simp [growsUnchecked] at hga
      -- BinOp
      · simp only [step, if_neg hno, hget] at hok ⊢
        match stk with
        | [] => simp at hok
        | [x] => simp at hok
        | x :: y :: r =>
          simp only [List.length_cons] at hinv ⊢
          omega
      -- PrintByte
      · simp only [step, if_neg hno, hget] at hok ⊢
        cases stk with
        | nil => simp at hok
        | cons x r =>
          simp only [List.length_cons] at hinv ⊢
          omega
      -- PrintChar
      · simp only [step, if_neg hno, hget] at hok ⊢
        cases stk with
        | nil => simp at hok
        | cons x r =>
          simp only [List.length_cons] at hinv ⊢
          omega
      -- If
      · rcases stk with _ | ⟨top, tail⟩
        · simp only [step, if_neg hno, hget] at hok
          simp at hok
        · by_cases htop : top > 0
          · simp only [step, if_neg hno, hget, if_pos htop]
            exact hinv
          · cases hscan : scanIfFalse toks.length toks pc 1 with
            | some j =>
              simp only [step, if_neg hno, hget, if_neg htop, hscan]
              exact hinv
            | none =>
              simp only [step, if_neg hno, hget, if_neg htop, hscan] at hok
              simp at hok
      -- Else
      · simp only [step, if_neg hno, hget] at hok ⊢
        cases hscan : scanElseSkip toks.length toks pc 1 with
        | some j =>
          simp only [hscan]
          exact hinv
        | none =>
          rw [hscan] at hok
          simp at hok
      -- Then
      · simp only [step, if_neg hno, hget]
        exact hinv
      -- Call
      · simp only [step, if_neg hno, hget] at hok ⊢
        cases hlab : List.lookup label labels with
        | none =>
          rw [hlab] at hok
          simp at hok
        | some i =>
          simp only [hlab]
          exact hinv
      -- Return
      · simp only [step, if_neg hno, hget] at hok ⊢
        cases cs with
        | nil => simp at hok
        | cons i r => exact hinv
      -- Halt
      · simp only [step, if_neg hno, hget]
        exact hinv

/-- C3 counterexample: `Dup` executed on a stack already at its
configured capacity succeeds and leaves the stack one element above the
capacity, so the capacity invariant is not preserved by every successful
step. -/
theorem dup_breaks_capacity :
    (step { tokens := [⟨.Dup, 1⟩], pc := 0, labels := [], call_stack := [],
            stack := [7], stack_size := 1, halted := false, out := "" }).1 = none
    ∧ (step { tokens := [⟨.Dup, 1⟩], pc := 0, labels := [], call_stack := [],
              stack := [7], stack_size := 1, halted := false, out := "" }).2.stack.length = 2
    ∧ 1 < 2 := by
  refine ⟨rfl, rfl, by decide⟩

/-- C3 witness: the amended capacity theorem applied to `Pop` on a
one-element stack at capacity 8. -/
theorem step_preserves_capacity_witness :
    (step { tokens := [⟨.Pop, 1⟩], pc := 0, labels := [], call_stack := [],
            stack := [5], stack_size := 8, halted := false, out := "" }).2.stack.length
      ≤ (step { tokens := [⟨.Pop, 1⟩], pc := 0, labels := [], call_stack := [],
                stack := [5], stack_size := 8, halted := false, out := "" }).2.stack_size :=
  step_preserves_capacity_except_unchecked _ (by decide)
    (fun a ha => by
      simp at ha
      rw [← ha]
      decide)
    rfl

theorem step_push (s : Program) (cur : AnnotatedToken) (v : Nat)
    (hh : s.halted = false) (hget : s.tokens.get? s.pc = some cur)
    (htok : cur.token = .Push v) (hlen : s.stack.length < s.stack_size) :
    step s = (none, { s with pc := s.pc + 1, stack := v :: s.stack }) := by
  obtain ⟨t, ln⟩ := cur
  simp only at htok
  subst htok
  have hpc : s.pc < s.tokens.length := (List.get?_eq_some.mp hget).1
  simp only [step]
  rw [if_neg (by simp only [hh, Bool.false_eq_true, or_false]; omega), hget]
  simp only [if_pos hlen]

theorem step_add (s : Program) (cur : AnnotatedToken) (x y : Nat) (rest : List Nat)
    (hh : s.halted = false) (hget : s.tokens.get? s.pc = some cur)
    (htok : cur.token = .BinOp .Add) (hstk : s.stack = x :: y :: rest) :
    step s = (none, { s with stack := byteAdd x y :: rest, pc := s.pc + 1 }) := by
  obtain ⟨t, ln⟩ := cur
  simp only at htok
  subst htok
  have hpc : s.pc < s.tokens.length := (List.get?_eq_some.mp hget).1
  simp only [step]
  rw [if_neg (by simp only [hh, Bool.false_eq_true, or_false]; omega), hget]
  simp only [hstk]

/-- C9 (confirmed): pushing `a` then `b` then executing `Add` produces the
same final operand stack as pushing `b` then `a` then `Add`, namely
`(a + b) mod 256` on top of the original stack, whenever the stack has
room for both pushes. -/
theorem add_commutes (a b : Nat) (st : List Nat) (cap : Nat)
    (hroom : st.length + 2 ≤ cap) (ha : a < 256) (hb : b < 256) :
    (step (step (step { tokens := [⟨.Push a, 1⟩, ⟨.Push b, 2⟩, ⟨.BinOp .Add, 3⟩], pc := 0, labels := [], call_stack := [], stack := st, stack_size := cap, halted := false, out := "" }).2).2).2.stack
      = (step (step (step { tokens := [⟨.Push b, 1⟩, ⟨.Push a, 2⟩, ⟨.BinOp .Add, 3⟩], pc := 0, labels := [], call_stack := [], stack := st, stack_size := cap, halted := false, out := "" }).2).2).2.stack
    ∧ (step (step (step { tokens := [⟨.Push a, 1⟩, ⟨.Push b, 2⟩, ⟨.BinOp .Add, 3⟩], pc := 0, labels := [], call_stack := [], stack := st, stack_size := cap, halted := false, out := "" }).2).2).2.stack = ((a + b) % 256) :: st := by
  have hrun : ∀ x y : Nat,
      (step (step (step { tokens := [⟨.Push x, 1⟩, ⟨.Push y, 2⟩, ⟨.BinOp .Add, 3⟩], pc := 0, labels := [], call_stack := [], stack := st, stack_size := cap, halted := false, out := "" }).2).2).2.stack = byteAdd y x :: st := by
    intro x y
    have h1 := step_push { tokens := [⟨.Push x, 1⟩, ⟨.Push y, 2⟩, ⟨.BinOp .Add, 3⟩], pc := 0, labels := [], call_stack := [], stack := st, stack_size := cap, halted := false, out := "" } ⟨.Push x, 1⟩ x rfl rfl rfl (by simp; omega)
    rw [h1]
    have h2 := step_push { tokens := [⟨.Push x, 1⟩, ⟨.Push y, 2⟩, ⟨.BinOp .Add, 3⟩], pc := 0 + 1, labels := [], call_stack := [], stack := x :: st, stack_size := cap, halted := false, out := "" } ⟨.Push y, 2⟩ y rfl rfl rfl (by simp; omega)
    rw [h2]
    have h3 := step_add { tokens := [⟨.Push x, 1⟩, ⟨.Push y, 2⟩, ⟨.BinOp .Add, 3⟩], pc := 0 + 1 + 1, labels := [], call_stack := [], stack := y :: x :: st, stack_size := cap, halted := false, out := "" } ⟨.BinOp .Add, 3⟩ y x st rfl rfl rfl rfl
    rw [h3]
  rw [hrun a b, hrun b a]
  constructor
  · simp [byteAdd, Nat.add_comm]
  · simp [byteAdd, Nat.add_comm]

/-- C9 witness: the commutativity theorem applied to the bytes 3 and 5 on
an empty stack of capacity 2. -/
theorem add_commutes_witness :
    (step (step (step { tokens := [⟨.Push 3, 1⟩, ⟨.Push 5, 2⟩, ⟨.BinOp .Add, 3⟩], pc := 0, labels := [], call_stack := [], stack := [], stack_size := 2, halted := false, out := "" }).2).2).2.stack
      = (step (step (step { tokens := [⟨.Push 5, 1⟩, ⟨.Push 3, 2⟩, ⟨.BinOp .Add, 3⟩], pc := 0, labels := [], call_stack := [], stack := [], stack_size := 2, halted := false, out := "" }).2).2).2.stack
    ∧ (step (step (step { tokens := [⟨.Push 3, 1⟩, ⟨.Push 5, 2⟩, ⟨.BinOp .Add, 3⟩], pc := 0, labels := [], call_stack := [], stack := [], stack_size := 2, halted := false, out := "" }).2).2).2.stack = ((3 + 5) % 256) :: [] :=
  add_commutes 3 5 [] 2 (by decide) (by decide) (by decide)

/-- C5 counterexample: in the program `PUSH 1 / IF / ELSE / PUSH 2 / THEN
/ HALT`, the `Else` at index 2 has its matching `Then` at index 4, but a
single `step` from the `Else` sets the program counter to 4 — the index
OF the matching `Then` — not to 5, the index just past it, refuting the
claim that the pc lands just past the matching `Then`. -/
theorem else_step_does_not_pass_then :
    IsThenMatch [⟨.Push 1, 1⟩, ⟨.If, 2⟩, ⟨.Else, 3⟩, ⟨.Push 2, 4⟩, ⟨.Then, 5⟩, ⟨.Halt, 6⟩] 2 4
    ∧ (step { tokens := [⟨.Push 1, 1⟩, ⟨.If, 2⟩, ⟨.Else, 3⟩, ⟨.Push 2, 4⟩, ⟨.Then, 5⟩, ⟨.Halt, 6⟩], pc := 2, labels := [], call_stack := [], stack := [1], stack_size := 8, halted := false, out := "" }).1 = none
    ∧ (step { tokens := [⟨.Push 1, 1⟩, ⟨.If, 2⟩, ⟨.Else, 3⟩, ⟨.Push 2, 4⟩, ⟨.Then, 5⟩, ⟨.Halt, 6⟩], pc := 2, labels := [], call_stack := [], stack := [1], stack_size := 8, halted := false, out := "" }).2.pc = 4
    ∧ (4 : Nat) ≠ 4 + 1 := by
  refine ⟨⟨by decide, by decide, by decide, ?_⟩, rfl, rfl, by decide⟩
  intro k hk1 hk2 hc
  have hk3 : k = 3 := by omega
  subst hk3
  exact absurd hc.1 (by decide)

/-- C5 witness: the amended theorem applied to that same `Else` state,
landing the pc exactly on the matching `Then` at index 4. -/
theorem else_step_sets_pc_witness :
    step { tokens := [⟨.Push 1, 1⟩, ⟨.If, 2⟩, ⟨.Else, 3⟩, ⟨.Push 2, 4⟩, ⟨.Then, 5⟩, ⟨.Halt, 6⟩], pc := 2, labels := [], call_stack := [], stack := [1], stack_size := 8, halted := false, out := "" }
      = (none, { tokens := [⟨.Push 1, 1⟩, ⟨.If, 2⟩, ⟨.Else, 3⟩, ⟨.Push 2, 4⟩, ⟨.Then, 5⟩, ⟨.Halt, 6⟩], pc := 4, labels := [], call_stack := [], stack := [1], stack_size := 8, halted := false, out := "" }) :=
  else_step_sets_pc_to_matching_then _ ⟨.Else, 3⟩ 4 rfl rfl rfl
    ⟨by decide, by decide, by decide, fun k hk1 hk2 hc => by
      have hk1' : 2 < k := hk1
      have hk3 : k = 3 := by omega
      subst hk3
      exact absurd hc.1 (by decide)⟩

/-- C6 witness: the `If` theorem applied to `IF / ELSE / THEN` with a 0
condition byte: the stop position is the `Else` at index 1 (at scan depth
1), and the step lands just past it at pc 2, with the 0 still on the
stack. -/
theorem if_step_peeks_and_branches_witness :
    step { tokens := [⟨.If, 1⟩, ⟨.Else, 2⟩, ⟨.Then, 3⟩], pc := 0, labels := [], call_stack := [], stack := [0], stack_size := 8, halted := false, out := "" }
      = (none, { tokens := [⟨.If, 1⟩, ⟨.Else, 2⟩, ⟨.Then, 3⟩], pc := 1 + 1, labels := [], call_stack := [], stack := [0], stack_size := 8, halted := false, out := "" }) :=
  (if_step_peeks_and_branches { tokens := [⟨.If, 1⟩, ⟨.Else, 2⟩, ⟨.Then, 3⟩], pc := 0, labels := [], call_stack := [], stack := [0], stack_size := 8, halted := false, out := "" } ⟨.If, 1⟩ 0 [] rfl rfl rfl rfl).2 rfl 1
    ⟨by decide, Or.inr (by decide), by decide, fun k hk1 hk2 _ => by
      have hk1' : 0 < k := hk1
      omega⟩

theorem checkCalls_cons_ok (b : AnnotatedToken) (rest : List AnnotatedToken)
    (labels : List (String × Nat)) :
    checkCalls (b :: rest) labels = .ok () ↔
      (∀ l, b.token = .Call l → (labels.lookup l).isSome) ∧ checkCalls rest labels = .ok () := by
  cases hb : b.token
  case Call lab =>
    cases hlab : labels.lookup lab with
    | none =>
      simp only [checkCalls, hb, hlab]
      constructor
      · intro h
        exact absurd h (by simp)
      · intro h
        have := h.1 lab rfl
        rw [hlab] at this
        simp at this
    | some v =>
      simp only [checkCalls, hb, hlab]
      constructor
      · intro h
        refine ⟨?_, h⟩
        intro l hl
        injection hl with he
        subst he
        rw [hlab]
        rfl
      · intro h
        exact h.2
  all_goals
    simp only [checkCalls, hb]
    constructor
    · intro h
      refine ⟨?_, h⟩
      intro l hl
      simp at hl
    · intro h
      exact h.2

theorem call_resolved_of_checkCalls (ts : List AnnotatedToken) (labels : List (String × Nat)) :
    checkCalls ts labels = .ok () →
      ∀ a ∈ ts, ∀ l, a.token = .Call l → (labels.lookup l).isSome := by
  induction ts with
  | nil =>
    intro _ a ha
    simp at ha
  | cons b rest ih =>
    intro h a ha l hl
    rw [checkCalls_cons_ok] at h
    rcases List.mem_cons.mp ha with rfl | hmem
    · exact h.1 l hl
    · exact ih h.2 a hmem l hl

theorem parse_ok_checkCalls (srcLines : List String) (ts : List AnnotatedToken)
    (labels : List (String × Nat)) (h : parse srcLines = .ok (ts, labels)) :
    checkCalls ts labels = .ok () := by
  unfold parse at h
  split at h
  · exact absurd h (by simp)
  · split at h
    · exact absurd h (by simp)
    · split at h
      · exact absurd h (by simp)
      · next u heq =>
          simp only [Except.ok.injEq, Prod.mk.injEq] at h
          obtain ⟨rfl, rfl⟩ := h
          cases u
          exact heq

/-- C7 (confirmed): for a successfully parsed program, `step` can never
return an `InvalidLabel` error from any state carrying the
tokens and label table (any program counter, stack, call stack, halted
flag): `check_calls` has already guaranteed that every `Call` label
resolves, so the `InvalidLabel` branch is unreachable. -/
theorem parsed_program_no_invalid_label (srcLines : List String) (s : Program)
    (ts : List AnnotatedToken) (labels : List (String × Nat))
    (hp : parse srcLines = .ok (ts, labels)) (hts : s.tokens = ts) (hl : s.labels = labels)
    (a : AnnotatedToken) :
    (step s).1 ≠ some (.InvalidLabel a) := by
  intro hbad
  have hcc : checkCalls ts labels = .ok () := parse_ok_checkCalls _ _ _ hp
  subst hts
  subst hl
  obtain ⟨toks, pc, labels', cs, stk, sz, hlf, o⟩ := s
  simp only at hcc hbad
  by_cases hno : pc ≥ toks.length ∨ hlf = true
  · simp only [step, if_pos hno] at hbad
    simp at hbad
  · cases hget : toks.get? pc with
    | none =>
      simp only [step, if_neg hno, hget] at hbad
      simp at hbad
    | some b =>
      obtain ⟨t, ln⟩ := b
      rcases t with v | _ | _ | _ | _ | _ | m | op | _ | _ | _ | _ | _ | lab | _ | _
      -- Push
      · by_cases hlen : stk.length < sz
        · simp only [step, if_neg hno, hget, if_pos hlen] at hbad
          simp at hbad
        · simp only [step, if_neg hno, hget, if_neg hlen] at hbad
          simp at hbad
      -- Pop
      · rcases stk with _ | ⟨x, r⟩ <;> simp only [step, if_neg hno, hget] at hbad <;> simp at hbad
      -- Dup
      · rcases stk with _ | ⟨x, r⟩ <;> simp only [step, if_neg hno, hget] at hbad <;> simp at hbad
      -- Swap
      · rcases stk with _ | ⟨x, _ | ⟨y, r⟩⟩ <;> simp only [step, if_neg hno, hget] at hbad <;>
          simp at hbad
      -- Rotate
      · rcases stk with _ | ⟨x, _ | ⟨y, _ | ⟨z, r⟩⟩⟩ <;>
          simp only [step, if_neg hno, hget] at hbad <;> simp at hbad
      -- Over
      · rcases stk with _ | ⟨x, _ | ⟨y, r⟩⟩ <;> simp only [step, if_neg hno, hget] at hbad <;>
          simp at hbad
      -- Pick
      · cases hv : vecGet stk (wrapSub (wrapSub stk.length 1) m) <;>
          simp only [step, if_neg hno, hget, hv] at hbad <;> simp at hbad
      -- BinOp
      · rcases stk with _ | ⟨x, _ | ⟨y, r⟩⟩ <;> simp only [step, if_neg hno, hget] at hbad <;>
          simp at hbad
      -- PrintByte
      · rcases stk with _ | ⟨x, r⟩ <;> simp only [step, if_neg hno, hget] at hbad <;> simp at hbad
      -- PrintChar
      · rcases stk with _ | ⟨x, r⟩ <;> simp only [step, if_neg hno, hget] at hbad <;> simp at hbad
      -- If
      · rcases stk with _ | ⟨top, tail⟩
        · simp only [step, if_neg hno, hget] at hbad
          simp at hbad
        · by_cases htop : top > 0
          · simp only [step, if_neg hno, hget, if_pos htop] at hbad
            simp at hbad
          · cases hscan : scanIfFalse toks.length toks pc 1 <;>
              simp only [step, if_neg hno, hget, if_neg htop, hscan] at hbad <;> simp at hbad
      -- Else
      · cases hscan : scanElseSkip toks.length toks pc 1 <;>
          simp only [step, if_neg hno, hget, hscan] at hbad <;> simp at hbad
      -- Then
      · simp only [step, if_neg hno, hget] at hbad
        simp at hbad
      -- Call
      · cases hlab : List.lookup lab labels' with
        | none =>
          have hmem : (⟨Token.Call lab, ln⟩ : AnnotatedToken) ∈ toks := List.get?_mem hget
          have hres := call_resolved_of_checkCalls toks labels' hcc _ hmem lab rfl
          rw [hlab] at hres
          simp at hres
        | some i =>
          simp only [step, if_neg hno, hget, hlab] at hbad
          simp at hbad
      -- Return
      · rcases cs with _ | ⟨i, r⟩ <;> simp only [step, if_neg hno, hget] at hbad <;> simp at hbad
      -- Halt
      · simp only [step, if_neg hno, hget] at hbad
        simp at hbad

/-- C7 witness: the theorem applied to the parsed program `FOO: / FOO /
HALT` at its initial state. -/
theorem parsed_program_no_invalid_label_witness :
    (step { tokens := [⟨.Call "FOO", 2⟩, ⟨.Halt, 3⟩], pc := 0, labels := [("FOO", 0)], call_stack := [], stack := [], stack_size := 256, halted := false, out := "" }).1
      ≠ some (.InvalidLabel ⟨.Halt, 3⟩) :=
  parsed_program_no_invalid_label ["FOO:", "FOO", "HALT"] _ [⟨.Call "FOO", 2⟩, ⟨.Halt, 3⟩] [("FOO", 0)] rfl rfl rfl ⟨.Halt, 3⟩

/-- C10 (confirmed): the parser silently discards extra tokens on a line.
For a first token that is neither a comment, a label declaration, nor
`PUSH`/`PICK` (so in particular for every argument-free mnemonic), the
rest of the line is ignored entirely; and for any line the tokens beyond
the first argument are discarded, so `PUSH 5 junk` parses like `PUSH 5`
(and `POP extra`, by the first part, parses like `POP`). -/
theorem parser_ignores_extra_tokens :
    (∀ (part : String) (rest rest' : List String) (ls : List (List String)) (n : Nat)
        (toks : List AnnotatedToken) (labels : List (String × Nat)),
        strStartsWithChar part '#' = false → strEndsWithChar part ':' = false →
        toUpperStr part ≠ "PUSH" → toUpperStr part ≠ "PICK" →
        parseAux ((part :: rest) :: ls) n toks labels
          = parseAux ((part :: rest') :: ls) n toks labels)
    ∧ (∀ (part arg : String) (junk : List String) (ls : List (List String)) (n : Nat)
        (toks : List AnnotatedToken) (labels : List (String × Nat)),
        parseAux ((part :: arg :: junk) :: ls) n toks labels
          = parseAux ((part :: arg :: []) :: ls) n toks labels) := by
  constructor
  · intro part rest rest' ls n toks labels h1 h2 h3 h4
    have h1' : ¬(strStartsWithChar part '#' = true) := by simp [h1]
    have h2' : ¬(strEndsWithChar part ':' = true) := by simp [h2]
    have hpi : parseInstr part rest n = parseInstr part rest' n := by
      simp only [parseInstr, if_neg h3, if_neg h4]
    simp only [parseAux, if_neg h1', if_neg h2', hpi]
  · intro part arg junk ls n toks labels
    have hpi : parseInstr part (arg :: junk) n = parseInstr part (arg :: []) n := by
      simp only [parseInstr]
    by_cases h1 : strStartsWithChar part '#' = true
    · simp only [parseAux, if_pos h1]
    · by_cases h2 : strEndsWithChar part ':' = true
      · simp only [parseAux, if_neg h1, if_pos h2]
      · simp only [parseAux, if_neg h1, if_neg h2, hpi]

/-- C10 witness: `POP extra` parses to the same instruction sequence as
`POP`, and `PUSH 5 junk` to the same as `PUSH 5`. -/
theorem parser_ignores_extra_tokens_witness :
    parseAux [["POP", "extra"]] 1 [] [] = parseAux [["POP"]] 1 [] []
    ∧ parseAux [["PUSH", "5", "junk"]] 1 [] [] = parseAux [["PUSH", "5"]] 1 [] [] :=
  ⟨parser_ignores_extra_tokens.1 "POP" ["extra"] [] [] 1 [] []
      (by decide) (by decide) (by decide) (by decide),
    parser_ignores_extra_tokens.2 "PUSH" "5" ["junk"] [] 1 [] []⟩

/-- C4 counterexample: the six-line source of the claim does not parse at
all.  There is no `CALL` mnemonic — a call is written as a bare label
name — so the first token `CALL` itself parses as a `Call` to the label
`CALL`, which is undeclared, and `check_calls` rejects the program with
`InvalidCall ("CALL", 1)` instead of the claimed successful parse. -/
theorem call_mnemonic_scenario_fails_to_parse :
    parse ["CALL FOO", "PRINT_BYTE", "HALT", "FOO:", "PUSH 9", "RETURN"]
      = .error (.InvalidCall "CALL" 1) := by decide

/-- C4 (amended): with the call written as the bare label name `FOO`, the
six-line program parses (the call resolving to the label at token index
3), runs to a halt emitting exactly the text `9`, and after the `Return`
(3 steps: the call, the push, the return) execution has resumed at index
1, the instruction just after the call. -/
theorem bare_call_scenario_runs :
    parse ["FOO", "PRINT_BYTE", "HALT", "FOO:", "PUSH 9", "RETURN"]
      = .ok ([⟨.Call "FOO", 1⟩, ⟨.PrintByte, 2⟩, ⟨.Halt, 3⟩, ⟨.Push 9, 5⟩, ⟨.Return, 6⟩],
             [("FOO", 3)])
    ∧ (run 6 (mkProgram [⟨.Call "FOO", 1⟩, ⟨.PrintByte, 2⟩, ⟨.Halt, 3⟩, ⟨.Push 9, 5⟩, ⟨.Return, 6⟩] [("FOO", 3)] 256)).1 = none
    ∧ (run 6 (mkProgram [⟨.Call "FOO", 1⟩, ⟨.PrintByte, 2⟩, ⟨.Halt, 3⟩, ⟨.Push 9, 5⟩, ⟨.Return, 6⟩] [("FOO", 3)] 256)).2.halted = true
    ∧ (run 6 (mkProgram [⟨.Call "FOO", 1⟩, ⟨.PrintByte, 2⟩, ⟨.Halt, 3⟩, ⟨.Push 9, 5⟩, ⟨.Return, 6⟩] [("FOO", 3)] 256)).2.out = "9"
    ∧ (run 3 (mkProgram [⟨.Call "FOO", 1⟩, ⟨.PrintByte, 2⟩, ⟨.Halt, 3⟩, ⟨.Push 9, 5⟩, ⟨.Return, 6⟩] [("FOO", 3)] 256)).2.pc = 1 := by
  refine ⟨by decide, by decide, by decide, ?_, by decide⟩
  decide
